import Mathlib

/-!
Shallow embedding of the font subsystem of the `gfx` package (`font.go`,
with the texture constructor from `cubemap.go`), together with proofs of
the specification claims about it.

Modelling conventions:
* Go `int32` values are modelled as `ℤ`, Go `float32`/`float64` as `ℚ`
  (the program only ever manipulates values that are exactly
  representable: small integers and 1/64-th fractions).
* `fixed.Int26_6` (26.6 fixed point) is modelled as `ℤ`.
* The glyph rasterizer (`truetype`/`sfnt` faces), the font file and the
  OpenGL device are external collaborators; the data they hand back to
  `LoadFontTexture` is a `FontEnv` value, and GL side effects are dropped
  (only the data the Go code stores in its own structs is retained).
* The process-wide font cache `fontMap` is passed explicitly; the third
  component of `LoadFontTexture`'s result counts how many atlas builds
  the call performed, so that cache-hit claims can be stated.
-/

/-- `minASCII` from font.go: first supported character code. -/
def minASCII : ℕ := 32

/-- The supported character range of the atlas builder:
`for i := minASCII; i < unicode.MaxASCII; i++` iterates codes 32..126. -/
def supportedCodes : List ℕ := List.range' 32 95

/-- Floor of a rational, computed the way `Rat.floor` does (`num / den`
with Euclidean division); kept executable so witnesses can evaluate it. -/
def ratFloor (q : ℚ) : ℤ := q.num / q.den

/-- Ceiling of a rational (executable). -/
def ratCeil (q : ℚ) : ℤ := -ratFloor (-q)

/-- Go's `math.Round`: round half away from zero. -/
def roundAway (q : ℚ) : ℤ := if 0 ≤ q then ratFloor (q + 1/2) else ratCeil (q - 1/2)

/-- Go's float-to-integer conversion `int32(f)`: truncation toward zero. -/
def truncQ (q : ℚ) : ℤ := if 0 ≤ q then ratFloor q else ratCeil q

/-- `fixed.Int26_6.Ceil` from golang.org/x/image/math/fixed:
`int((x + 0x3f) >> 6)`. -/
def fixedCeil (x : ℤ) : ℤ := (x + 0x3f) >>> (6 : ℕ)

/-- `int26_6ToFloat32` from font.go:
`top := float32(x >> 6); bottom := float32(x&0x3F) / 64.0; top + bottom`. -/
def int26_6ToFloat32 (x : ℤ) : ℚ :=
  ((x >>> (6 : ℕ) : ℤ) : ℚ) + ((Int.land x 0x3f : ℤ) : ℚ) / 64.0

/-- `AlignV` constants from font.go (`iota - 1`). -/
def AlignAbove : ℤ := -1

/-- `AlignMiddle` puts the top and bottom sides equidistant from the middle. -/
def AlignMiddle : ℤ := 0

/-- `AlignBelow` puts the bottom side on the y coordinate. -/
def AlignBelow : ℤ := 1

/-- `AlignH` constants from font.go (`iota - 1`). -/
def AlignLeft : ℤ := -1

/-- `AlignCenter` puts the left and right sides equidistant from the center. -/
def AlignCenter : ℤ := 0

/-- `AlignRight` puts the right side at the x coordinate. -/
def AlignRight : ℤ := 1

/-- `Align` holds vertical and horizontal alignments (font.go). -/
structure Align where
  V : ℤ
  H : ℤ
deriving DecidableEq

/-- `Point` from shapes.go. -/
structure Point where
  X : ℤ
  Y : ℤ
deriving DecidableEq

/-- `runeInfo` from font.go: per-character spacing info. -/
structure runeInfo where
  row : ℤ
  width : ℤ
  height : ℤ
  bearingX : ℚ
  bearingY : ℚ
  advance : ℚ
deriving DecidableEq

/-- A zero `runeInfo`, used as the (never relevant in-range) default of
list lookups that model Go's panicking array indexing. -/
def runeInfo0 : runeInfo :=
  { row := 0, width := 0, height := 0, bearingX := 0, bearingY := 0, advance := 0 }

/-- `metrics` from font.go (face-wide metrics, already converted to float). -/
structure metrics where
  Height : ℚ
  Ascent : ℚ
  Descent : ℚ
  XHeight : ℚ
  CapHeight : ℚ
  CaretSlope : Point
deriving DecidableEq

/-- `Texture` from cubemap.go. The GL texture id and the uploaded pixel
data live on the device and are not part of the struct's retained state
that the font code reads back (only via GL). -/
structure Texture where
  width : ℤ
  height : ℤ
  format : ℤ
  alignment : ℤ
  texelSize : ℤ
deriving DecidableEq

/-- `gl.RED` pixel format constant. -/
def glRED : ℤ := 0x1903

/-- `gl.NEAREST` filter constant. -/
def glNEAREST : ℤ := 0x2600

/-- `gl.TEXTURE_MIN_FILTER` constant. -/
def glTEXTURE_MIN_FILTER : ℤ := 0x2801

/-- `gl.TEXTURE_MAG_FILTER` constant. -/
def glTEXTURE_MAG_FILTER : ℤ := 0x2800

/-- `NewTexture` from cubemap.go: fills the struct, uploads `data` to the
device (a GL side effect, dropped here) and always returns a nil error
(`return t, nil`). -/
def NewTexture (width height : ℤ) (data : List ℕ) (format : ℤ)
    (alignment texelSize : ℤ) : Texture × Option Unit :=
  let _ := data
  ({ width := width, height := height, format := format,
     alignment := alignment, texelSize := texelSize }, none)

/-- `Texture.SetParameter` from cubemap.go: pure GL state, leaves the
struct unchanged. -/
def SetParameter (t : Texture) (paramName param : ℤ) : Texture :=
  let _ := paramName
  let _ := param
  t

/-- `FontInfo` from font.go. -/
structure FontInfo where
  texture : Texture
  runeMap : List runeInfo
  metrics : metrics
deriving DecidableEq

/-- `font.runeMap[r-minASCII]`: glyph lookup by character code. Go panics
on out-of-range indices; claims about strings therefore carry an
in-range hypothesis and the default is never reached there. -/
def runeAt (font : FontInfo) (c : ℕ) : runeInfo :=
  font.runeMap.getD (c - minASCII) runeInfo0

/-- The string-width computation shared verbatim by `MapString` and
`CalcStringDims` in font.go: sum the advances over the runes, then, if
the last rune's `width + bearingX` exceeds its `advance`, add the
excess. (`str[len(str)-1]` is the last byte, which for the in-range
ASCII strings of the claims is the last rune.) -/
def stringWidth (font : FontInfo) (str : List ℕ) : ℚ :=
  let base := str.foldl (fun acc c => acc + (runeAt font c).advance) 0
  let lastInfo := runeAt font (str.getLastD 0)
  if (lastInfo.width : ℚ) + lastInfo.bearingX > lastInfo.advance then
    base + ((lastInfo.width : ℚ) + lastInfo.bearingX - lastInfo.advance)
  else base

/-- The horizontal offset `offx` computed by `MapString`:
`w2 := float64(strWidth) / 2.0; offx := int32(-w2 - float64(align.H)*w2)`. -/
def horizontalOffset (font : FontInfo) (str : List ℕ) (alignH : ℤ) : ℤ :=
  truncQ (-(stringWidth font str / 2) - (alignH : ℚ) * (stringWidth font str / 2))

/-- The vertical offset `offy` computed by `MapString`'s switch on
`align.V` (default: the zero value of `var offy float32`). -/
def vOffset (font : FontInfo) (alignV : ℤ) : ℚ :=
  if alignV = AlignBelow then -((ratCeil font.metrics.Ascent : ℤ) : ℚ)
  else if alignV = AlignMiddle then -(font.metrics.XHeight / 2)
  else if alignV = AlignAbove then ((ratCeil font.metrics.Descent : ℤ) : ℚ)
  else 0

/-- One (x, y, s, t) vertex of the text mesh. -/
structure Vertex where
  x : ℚ
  y : ℚ
  s : ℚ
  t : ℚ
deriving DecidableEq

/-- The six vertices (two triangles) `MapString` emits for one rune at
pen origin `(ox, oy)`: bottom-left, top-left, top-right, bottom-left,
top-right, bottom-right, with texture coordinates taken from the glyph's
`row`/`width`/`height`. -/
def glyphVerts (info : runeInfo) (ox oy : ℚ) : List Vertex :=
  let posTLx := ox + info.bearingX
  let posTLy := oy + ((info.height : ℚ) - info.bearingY)
  let posTRx := posTLx + (info.width : ℚ)
  let posBLy := oy - info.bearingY
  let texTLy := (info.row : ℚ)
  let texBLy := texTLy + (info.height : ℚ)
  [ { x := posTLx, y := posBLy, s := 0, t := texBLy },
    { x := posTLx, y := posTLy, s := 0, t := texTLy },
    { x := posTRx, y := posTLy, s := (info.width : ℚ), t := texTLy },
    { x := posTLx, y := posBLy, s := 0, t := texBLy },
    { x := posTRx, y := posTLy, s := (info.width : ℚ), t := texTLy },
    { x := posTRx, y := posBLy, s := (info.width : ℚ), t := texBLy } ]

/-- The per-rune loop of `MapString`: emit six vertices for each rune,
advancing the pen origin by the glyph's `advance`. -/
def mapRunes (font : FontInfo) : List ℕ → ℚ → ℚ → List Vertex
  | [], _, _ => []
  | c :: cs, ox, oy =>
    let info := runeAt font c
    glyphVerts info ox oy ++ mapRunes font cs (ox + info.advance) oy

/-- Flattening of vertices into the `[]float32` buffer `MapString`
returns: each vertex contributes its `(x, y, s, t)` components. -/
def flattenVerts (vs : List Vertex) : List ℚ :=
  vs.flatMap (fun v => [v.x, v.y, v.s, v.t])

/-- The x components (every fourth element, starting at the first) of a
flat vertex buffer: the screen-space x coordinates of its vertices. -/
def xComponents : List ℚ → List ℚ
  | x :: _ :: _ :: _ :: rest => x :: xComponents rest
  | _ => []

/-- `FontInfo.MapString` from font.go. -/
def MapString (font : FontInfo) (str : List ℕ) (pos : Point) (align : Align) : List ℚ :=
  let offx := horizontalOffset font str align.H
  let offy := vOffset font align.V
  flattenVerts (mapRunes font str ((pos.X + offx : ℤ) : ℚ) ((pos.Y : ℚ) + offy))

/-- `FontInfo.CalcStringDims` from font.go: the width is the shared
string-width computation (the loop also tracks `largestBearingY`, which
the function never uses), the height is the face's `metrics.Height`. -/
def CalcStringDims (font : FontInfo) (str : List ℕ) : ℚ × ℚ :=
  (stringWidth font str, font.metrics.Height)

/-- What the rasterizer hands back for one character: the results of
`face.Glyph` (rounded rect `dx`/`dy`, mask with `stride`, `maskp.Y`,
pixel bytes, whether the mask cast to `*image.Alpha` succeeds, the
fixed-point `advance`) and of `face.GlyphBounds` (`okBounds` plus the
precise fixed-point bounds used for the bearings). `none` models
`face.Glyph` reporting no glyph. -/
structure GlyphData where
  dx : ℕ
  dy : ℕ
  maskpY : ℕ
  stride : ℕ
  pix : ℕ → ℕ
  isAlpha : Bool
  okBounds : Bool
  accMinX : ℤ
  accMaxY : ℤ
  advance : ℤ

/-- The bytes the build loop appends for one glyph: for each bitmap row,
`glyph.Pix[(maskp.Y+row)*stride : (maskp.Y+row+1)*stride]`. -/
def glyphRowBytes (g : GlyphData) : List ℕ :=
  (List.range g.dy).flatMap
    (fun row => (List.range g.stride).map (fun k => g.pix ((g.maskpY + row) * g.stride + k)))

/-- The `runeInfo` record `LoadFontTexture` stores for one glyph:
`row` is the running row count before appending, `bearingX` is
`math.Round(float64(accurateRect.Min.X.Ceil()))`, `bearingY` is
`float32(accurateRect.Max.Y.Ceil())`, `advance` is
`math.Round(float64(int26_6ToFloat32(advance)))`. -/
def mkRuneInfo (currentIndex : ℤ) (g : GlyphData) : runeInfo :=
  { row := currentIndex
    width := (g.dx : ℤ)
    height := (g.dy : ℤ)
    bearingX := ((roundAway ((fixedCeil g.accMinX : ℤ) : ℚ) : ℤ) : ℚ)
    bearingY := ((fixedCeil g.accMaxY : ℤ) : ℚ)
    advance := ((roundAway (int26_6ToFloat32 g.advance) : ℤ) : ℚ) }

/-- The glyph loop of `LoadFontTexture` over a list of character codes,
carrying `currentIndex` and `glyphBytes`. Any missing glyph, failed
bounds query or failed `*image.Alpha` cast aborts the whole build. -/
def buildGlyphs (glyph : ℕ → Option GlyphData) :
    List ℕ → ℤ → List ℕ → Option (List runeInfo × ℤ × List ℕ)
  | [], currentIndex, glyphBytes => some ([], currentIndex, glyphBytes)
  | c :: cs, currentIndex, glyphBytes =>
    match glyph c with
    | none => none
    | some g =>
      if g.okBounds && g.isAlpha then
        match buildGlyphs glyph cs (currentIndex + (g.dy : ℤ)) (glyphBytes ++ glyphRowBytes g) with
        | none => none
        | some (ris, fin, bytes) => some (mkRuneInfo currentIndex g :: ris, fin, bytes)
      else none

/-- The fixed-point face-wide metrics `otfFace.Metrics()` reports. -/
structure faceMetricsFixed where
  Height : ℤ
  Ascent : ℤ
  Descent : ℤ
  XHeight : ℤ
  CapHeight : ℤ
  CaretSlope : Point
deriving DecidableEq

/-- Everything the external collaborators (file system, truetype/sfnt
parsers, rasterizer faces, opentype face) hand `LoadFontTexture` for one
font key: `fileBytes` is the `ioutil.ReadFile` result (`none` = read
error), the two `...ParseOK` flags are the parse outcomes, `glyph` is
the rasterizer, `newFaceOK` is the `opentype.NewFace` outcome. -/
structure FontEnv where
  fileBytes : Option (List ℕ)
  ttfParseOK : Bool
  sfntParseOK : Bool
  glyph : ℕ → Option GlyphData
  newFaceOK : Bool
  faceMetrics : faceMetricsFixed

/-- The cache-miss path of `LoadFontTexture` (everything after the map
lookup): read + parse the font file twice (truetype, then sfnt), run the
glyph loop, re-rasterize 'A' (code 65) for the mask stride, create the
texture (`len(glyphBytes)/glyph.Stride` rows), set nearest filtering,
build the opentype face and convert its metrics. Every error path
returns `none`. -/
def buildAtlas (env : FontEnv) : Option FontInfo :=
  match env.fileBytes with
  | none => none
  | some _ =>
    if env.ttfParseOK then
      match env.fileBytes with
      | none => none
      | some _ =>
        if env.sfntParseOK then
          match buildGlyphs env.glyph supportedCodes 0 [] with
          | none => none
          | some (runeMap, _, glyphBytes) =>
            match env.glyph 65 with
            | none => none
            | some glyphA =>
              let texWidth : ℤ := (glyphA.stride : ℤ)
              let texHeight : ℤ := ((glyphBytes.length / glyphA.stride : ℕ) : ℤ)
              match NewTexture texWidth texHeight glyphBytes glRED 1 1 with
              | (_, some _) => none
              | (fontTexture, none) =>
                let fontTexture := SetParameter fontTexture glTEXTURE_MIN_FILTER glNEAREST
                let fontTexture := SetParameter fontTexture glTEXTURE_MAG_FILTER glNEAREST
                if env.newFaceOK then
                  some { texture := fontTexture
                         runeMap := runeMap
                         metrics :=
                           { Height := int26_6ToFloat32 env.faceMetrics.Height
                             Ascent := int26_6ToFloat32 env.faceMetrics.Ascent
                             Descent := int26_6ToFloat32 env.faceMetrics.Descent
                             XHeight := int26_6ToFloat32 env.faceMetrics.XHeight
                             CapHeight := int26_6ToFloat32 env.faceMetrics.CapHeight
                             CaretSlope := env.faceMetrics.CaretSlope } }
                else none
        else none
    else none

/-- `fontKey` from font.go. -/
structure fontKey where
  fontName : String
  fontSize : ℤ
deriving DecidableEq

/-- `LoadFontTexture` from font.go, with the process-wide cache `fontMap`
passed in and returned. The third component counts the atlas builds this
call performed (0 on a cache hit, 1 otherwise), so that the
at-most-once-build claims can be stated; it is instrumentation, not
program state. On a miss the result is stored only on success. -/
def LoadFontTexture (env : fontKey → FontEnv) (fontMap : fontKey → Option FontInfo)
    (fontName : String) (fontSize : ℤ) :
    Option FontInfo × (fontKey → Option FontInfo) × ℕ :=
  let key : fontKey := { fontName := fontName, fontSize := fontSize }
  match fontMap key with
  | some val => (some val, fontMap, 0)
  | none =>
    match buildAtlas (env key) with
    | none => (none, fontMap, 1)
    | some info =>
      (some info, fun k => if k = key then some info else fontMap k, 1)

/-- Rows of a glyph list are contiguous starting at `idx`: each record's
`row` is the running row count, which then advances by its `height`. -/
def RowChain : ℤ → List runeInfo → Prop
  | _, [] => True
  | idx, r :: rs => r.row = idx ∧ RowChain (idx + r.height) rs

/-- A well-behaved rasterizer glyph used by witnesses: a 1x1 bitmap with
stride 1, advance 1.0 (64 in 26.6), bounds at the origin. -/
def demoGlyph : GlyphData :=
  { dx := 1, dy := 1, maskpY := 0, stride := 1, pix := fun _ => 0,
    isAlpha := true, okBounds := true, accMinX := 0, accMaxY := 0, advance := 64 }

/-- Face-wide fixed-point metrics used by witnesses. -/
def demoFaceMetrics : faceMetricsFixed :=
  { Height := 64, Ascent := 64, Descent := 0, XHeight := 0, CapHeight := 0,
    CaretSlope := { X := 0, Y := 1 } }

/-- A fully successful build environment. -/
def demoEnv : FontEnv :=
  { fileBytes := some [], ttfParseOK := true, sfntParseOK := true,
    glyph := fun _ => some demoGlyph, newFaceOK := true,
    faceMetrics := demoFaceMetrics }

/-- The successful environment, for every font key. -/
def demoEnvMap : fontKey → FontEnv := fun _ => demoEnv

/-- An environment whose font lacks the glyph for character code 32. -/
def badEnv : FontEnv :=
  { fileBytes := some [], ttfParseOK := true, sfntParseOK := true,
    glyph := fun c => if c = 32 then none else some demoGlyph,
    newFaceOK := true, faceMetrics := demoFaceMetrics }

/-- The missing-glyph environment, for every font key. -/
def badEnvMap : fontKey → FontEnv := fun _ => badEnv

/-- A glyph whose precise bounding box has left edge 80/64 = 1.25:
its ceiling (2) differs from its round-to-nearest value (1). -/
def cex4Glyph : GlyphData :=
  { dx := 1, dy := 1, maskpY := 0, stride := 1, pix := fun _ => 0,
    isAlpha := true, okBounds := true, accMinX := 80, accMaxY := 0, advance := 64 }

/-- A successful environment whose glyphs all have left edge 1.25. -/
def cex4Env : FontEnv :=
  { fileBytes := some [], ttfParseOK := true, sfntParseOK := true,
    glyph := fun _ => some cex4Glyph, newFaceOK := true,
    faceMetrics := demoFaceMetrics }

/-- The empty font cache (`fontMap` freshly initialized). -/
def emptyFontMap : fontKey → Option FontInfo := fun _ => none

/-- A texture record for hand-built `FontInfo` values. -/
def demoTexture : Texture :=
  { width := 1, height := 95, format := glRED, alignment := 1, texelSize := 1 }

/-- Face metrics for hand-built `FontInfo` values. -/
def demoMetrics : metrics :=
  { Height := 1, Ascent := 1, Descent := 0, XHeight := 0, CapHeight := 0,
    CaretSlope := { X := 0, Y := 1 } }

/-- A glyph with odd advance 7 and ink inside the advance. -/
def glyph7 : runeInfo :=
  { row := 0, width := 3, height := 1, bearingX := 0, bearingY := 0, advance := 7 }

/-- A font whose every glyph is `glyph7`: total width of a one-character
string is 7, an odd number, so the centering offset `-3.5` truncates. -/
def demoFont7 : FontInfo :=
  { texture := demoTexture, runeMap := List.replicate 95 glyph7, metrics := demoMetrics }

/-- A glyph whose ink sits 5 pixels right of the pen origin
(`bearingX = 5`, `width = 2`) inside an advance of 10. -/
def glyphInk : runeInfo :=
  { row := 0, width := 2, height := 1, bearingX := 5, bearingY := 0, advance := 10 }

/-- A font whose every glyph is `glyphInk`: centered text is visibly
asymmetric around the anchor. -/
def demoFontInk : FontInfo :=
  { texture := demoTexture, runeMap := List.replicate 95 glyphInk, metrics := demoMetrics }

/-- A glyph with zero bearing whose ink exactly fills its advance of 2. -/
def glyphSquare : runeInfo :=
  { row := 0, width := 2, height := 1, bearingX := 0, bearingY := 0, advance := 2 }

/-- A font whose every glyph is `glyphSquare`. -/
def demoFontSquare : FontInfo :=
  { texture := demoTexture, runeMap := List.replicate 95 glyphSquare, metrics := demoMetrics }

theorem nat_land_63 (n : ℕ) : Nat.land n 63 = n % 64 := by
  apply Nat.eq_of_testBit_eq
  intro i
  have h63 : (63 : ℕ) = 2 ^ 6 - 1 := by norm_num
  have h64 : (64 : ℕ) = 2 ^ 6 := by norm_num
  rw [show Nat.land n 63 = n &&& 63 from rfl]
  rw [Nat.testBit_land, h63, h64, Nat.testBit_two_pow_sub_one, Nat.testBit_mod_two_pow]
  exact Bool.and_comm _ _

theorem nat_sub_eq_xor (r : ℕ) (h : r < 64) : 63 - r = 63 ^^^ r := by
  revert h
  revert r
  decide

theorem nat_ldiff_63 (m : ℕ) : Nat.ldiff 63 m = 63 - m % 64 := by
  have h1 : Nat.ldiff 63 m = 63 ^^^ (m % 64) := by
    apply Nat.eq_of_testBit_eq
    intro i
    have h63 : (63 : ℕ) = 2 ^ 6 - 1 := by norm_num
    have h64 : (64 : ℕ) = 2 ^ 6 := by norm_num
    rw [Nat.testBit_ldiff, Nat.testBit_xor, h63, h64, Nat.testBit_two_pow_sub_one,
      Nat.testBit_mod_two_pow]
    by_cases hi : i < 6 <;> simp [hi]
  rw [h1, nat_sub_eq_xor (m % 64) (Nat.mod_lt _ (by norm_num))]

/-- Go's `x & 0x3F` on a (signed) integer is the non-negative remainder
mod 64. -/
theorem int_land_63 (x : ℤ) : Int.land x 63 = x % 64 := by
  cases x with
  | ofNat n =>
      have h : Int.land (Int.ofNat n) 63 = Int.ofNat (Nat.land n 63) := rfl
      rw [h, nat_land_63]
      have h2 : Int.ofNat (n % 64) = ((n % 64 : ℕ) : ℤ) := rfl
      have h3 : Int.ofNat n = ((n : ℕ) : ℤ) := rfl
      rw [h2, h3]
      omega
  | negSucc m =>
      have h : Int.land (Int.negSucc m) 63 = Int.ofNat (Nat.ldiff 63 m) := rfl
      rw [h, nat_ldiff_63]
      have h2 : Int.ofNat (63 - m % 64) = ((63 - m % 64 : ℕ) : ℤ) := rfl
      rw [h2, Int.negSucc_eq]
      omega

/-- Go's arithmetic right shift `x >> 6` on a signed integer is floor
division by 64. -/
theorem int_shift_6 (x : ℤ) : x >>> (6 : ℕ) = x / 64 := by
  have h := Int.shiftRight_eq_div_pow x 6
  norm_num at h
  exact h

theorem ratFloor_eq (q : ℚ) : ratFloor q = ⌊q⌋ := (Rat.floor_def).symm

theorem ratCeil_eq (q : ℚ) : ratCeil q = ⌈q⌉ := by
  rw [ratCeil, ratFloor_eq, Int.floor_neg]
  ring

theorem roundAway_intCast (n : ℤ) : roundAway (n : ℚ) = n := by
  unfold roundAway
  by_cases h : 0 ≤ (n : ℚ)
  · rw [if_pos h, ratFloor_eq]
    rw [show ((n : ℚ) + 1/2) = (1/2 : ℚ) + n from by ring]
    rw [Int.floor_add_int]
    norm_num
  · rw [if_neg h, ratCeil_eq]
    rw [show ((n : ℚ) - 1/2) = (-(1/2) : ℚ) + n from by ring]
    rw [Int.ceil_add_int]
    norm_num

theorem truncQ_intCast (n : ℤ) : truncQ (n : ℚ) = n := by
  unfold truncQ
  by_cases h : 0 ≤ (n : ℚ)
  · rw [if_pos h, ratFloor_eq, Int.floor_intCast]
  · rw [if_neg h, ratCeil_eq, Int.ceil_intCast]

/-- The 26.6 fixed-point conversion is exact division by 64. -/
theorem int26_6ToFloat32_eq (x : ℤ) : int26_6ToFloat32 x = (x : ℚ) / 64 := by
  unfold int26_6ToFloat32
  rw [int_shift_6, show ((0x3f : ℤ)) = 63 from rfl, int_land_63]
  have h := Int.ediv_add_emod x 64
  have h64 : ((64.0 : ℚ)) = 64 := by norm_num
  have hcast : (64 : ℚ) * ((x / 64 : ℤ) : ℚ) + ((x % 64 : ℤ) : ℚ) = (x : ℚ) := by
    exact_mod_cast congrArg (fun z : ℤ => (z : ℚ)) h
  rw [h64]
  field_simp
  linarith

/-- `fixed.Int26_6.Ceil` really is the ceiling of the represented value. -/
theorem fixedCeil_eq (x : ℤ) : fixedCeil x = ⌈(x : ℚ) / 64⌉ := by
  unfold fixedCeil
  rw [int_shift_6]
  symm
  rw [Int.ceil_eq_iff]
  constructor
  · rw [show ((((x + 63) / 64 : ℤ) : ℚ) - 1) = (((x + 63) / 64 - 1 : ℤ) : ℚ) from by push_cast; ring]
    rw [lt_div_iff₀ (by norm_num : (0:ℚ) < 64)]
    exact_mod_cast (by omega : ((x + 63) / 64 - 1) * 64 < x)
  · rw [div_le_iff₀ (by norm_num : (0:ℚ) < 64)]
    exact_mod_cast (by omega : x ≤ ((x + 63) / 64) * 64)

/-- C10: for every fixed-point 26.6 value `x`, including negative ones,
`int26_6ToFloat32` decomposes `x` into the integer part `x >> 6` (floor
division by 64) and the non-negative fractional part `(x & 0x3F)/64`;
the parts recombine exactly (`(x >> 6) * 64 + (x & 0x3F) = x`) and the
result is exactly `x/64`. -/
theorem claim_C10_int26_6 (x : ℤ) :
    (x >>> (6 : ℕ)) = x / 64 ∧
    0 ≤ Int.land x 0x3f ∧ Int.land x 0x3f < 64 ∧
    (x >>> (6 : ℕ)) * 64 + Int.land x 0x3f = x ∧
    int26_6ToFloat32 x = (x : ℚ) / 64 := by
  have hl : Int.land x 0x3f = x % 64 := int_land_63 x
  have hs : x >>> (6 : ℕ) = x / 64 := int_shift_6 x
  refine ⟨hs, ?_, ?_, ?_, int26_6ToFloat32_eq x⟩
  · rw [hl]; omega
  · rw [hl]; omega
  · rw [hl, hs]; omega

theorem foldl_advance (font : FontInfo) (str : List ℕ) (a : ℚ) :
    str.foldl (fun acc c => acc + (runeAt font c).advance) a =
      a + (str.map (fun c => (runeAt font c).advance)).sum := by
  induction str generalizing a with
  | nil => simp
  | cons c cs ih => simp [List.foldl_cons, ih, add_assoc]

theorem flattenVerts_length (vs : List Vertex) :
    (flattenVerts vs).length = 4 * vs.length := by
  induction vs with
  | nil => rfl
  | cons v vs ih => simp [flattenVerts] at ih ⊢; omega

theorem mapRunes_length (font : FontInfo) (str : List ℕ) (ox oy : ℚ) :
    (mapRunes font str ox oy).length = 6 * str.length := by
  induction str generalizing ox with
  | nil => rfl
  | cons c cs ih => simp [mapRunes, glyphVerts, ih]; omega

theorem xComponents_flattenVerts (vs : List Vertex) :
    xComponents (flattenVerts vs) = vs.map (fun v => v.x) := by
  induction vs with
  | nil => rfl
  | cons v vs ih => simp [flattenVerts] at ih ⊢; rw [xComponents]; simp [ih]

/-- C9: for every non-empty in-range string, `MapString` returns six
vertices per character in string order, each a 4-component (x,y,s,t)
tuple, i.e. a flat buffer of `24 * len(text)` floats. -/
theorem claim_C9_mesh_size (font : FontInfo) (str : List ℕ) (pos : Point) (align : Align)
    (hne : str ≠ []) (hin : ∀ c ∈ str, minASCII ≤ c ∧ c < 127) :
    MapString font str pos align =
      flattenVerts (mapRunes font str ((pos.X + horizontalOffset font str align.H : ℤ) : ℚ)
        ((pos.Y : ℚ) + vOffset font align.V)) ∧
    (mapRunes font str ((pos.X + horizontalOffset font str align.H : ℤ) : ℚ)
        ((pos.Y : ℚ) + vOffset font align.V)).length = 6 * str.length ∧
    (MapString font str pos align).length = 24 * str.length := by
  refine ⟨rfl, mapRunes_length font str _ _, ?_⟩
  rw [show MapString font str pos align =
    flattenVerts (mapRunes font str ((pos.X + horizontalOffset font str align.H : ℤ) : ℚ)
      ((pos.Y : ℚ) + vOffset font align.V)) from rfl]
  rw [flattenVerts_length, mapRunes_length]
  ring

/-- C9 witness: the claim instantiated at a one-character string. -/
theorem claim_C9_witness :
    MapString demoFont7 [32] { X := 0, Y := 0 } { V := AlignMiddle, H := AlignCenter } =
      flattenVerts (mapRunes demoFont7 [32]
        ((({ X := 0, Y := 0 } : Point).X +
          horizontalOffset demoFont7 [32] ({ V := AlignMiddle, H := AlignCenter } : Align).H : ℤ) : ℚ)
        ((({ X := 0, Y := 0 } : Point).Y : ℚ) +
          vOffset demoFont7 ({ V := AlignMiddle, H := AlignCenter } : Align).V)) ∧
    (mapRunes demoFont7 [32]
        ((({ X := 0, Y := 0 } : Point).X +
          horizontalOffset demoFont7 [32] ({ V := AlignMiddle, H := AlignCenter } : Align).H : ℤ) : ℚ)
        ((({ X := 0, Y := 0 } : Point).Y : ℚ) +
          vOffset demoFont7 ({ V := AlignMiddle, H := AlignCenter } : Align).V)).length = 6 * 1 ∧
    (MapString demoFont7 [32] { X := 0, Y := 0 } { V := AlignMiddle, H := AlignCenter }).length = 24 * 1 :=
  claim_C9_mesh_size demoFont7 [32] { X := 0, Y := 0 } { V := AlignMiddle, H := AlignCenter }
    (by decide) (by decide)

/-- C2: for every non-empty in-range string, `CalcStringDims` returns as
width the sum of the glyph advances plus — exactly when the last
character's `bearingX + width` exceeds its `advance` — the excess, and
as height always the face's line height. -/
theorem claim_C2_calcStringDims (font : FontInfo) (str : List ℕ)
    (hne : str ≠ []) (hin : ∀ c ∈ str, minASCII ≤ c ∧ c < 127) :
    (CalcStringDims font str).1 =
      (str.map (fun c => (runeAt font c).advance)).sum +
        (if ((runeAt font (str.getLastD 0)).bearingX +
              ((runeAt font (str.getLastD 0)).width : ℚ) >
            (runeAt font (str.getLastD 0)).advance) then
          (runeAt font (str.getLastD 0)).bearingX +
            ((runeAt font (str.getLastD 0)).width : ℚ) -
            (runeAt font (str.getLastD 0)).advance
        else 0) ∧
    (CalcStringDims font str).2 = font.metrics.Height := by
  refine ⟨?_, rfl⟩
  show stringWidth font str = _
  rw [stringWidth]
  simp only [foldl_advance font str 0, zero_add]
  by_cases hc : ((runeAt font (str.getLastD 0)).width : ℚ) +
      (runeAt font (str.getLastD 0)).bearingX > (runeAt font (str.getLastD 0)).advance
  · rw [if_pos hc, if_pos (by linarith)]
    ring
  · rw [if_neg hc, if_neg (by intro hcon; exact hc (by linarith))]
    ring

/-- C2 witness: the claim instantiated at a one-character string whose
glyph has advance 7 and no overflow. -/
theorem claim_C2_witness :
    (CalcStringDims demoFont7 [32]).1 =
      (([32] : List ℕ).map (fun c => (runeAt demoFont7 c).advance)).sum +
        (if ((runeAt demoFont7 (([32] : List ℕ).getLastD 0)).bearingX +
              ((runeAt demoFont7 (([32] : List ℕ).getLastD 0)).width : ℚ) >
            (runeAt demoFont7 (([32] : List ℕ).getLastD 0)).advance) then
          (runeAt demoFont7 (([32] : List ℕ).getLastD 0)).bearingX +
            ((runeAt demoFont7 (([32] : List ℕ).getLastD 0)).width : ℚ) -
            (runeAt demoFont7 (([32] : List ℕ).getLastD 0)).advance
        else 0) ∧
    (CalcStringDims demoFont7 [32]).2 = demoFont7.metrics.Height :=
  claim_C2_calcStringDims demoFont7 [32] (by decide) (by decide)

/-- C3 counterexample: with a one-character centered string of total
width 7, the spec's formula gives an offset of `-7/2 = -3.5`, but the
offset the code applies (`offx`, an `int32`) is `-3`: the conversion
truncates, so the claimed equality fails at this input. -/
theorem claim_C3_counterexample :
    horizontalOffset demoFont7 [32] AlignCenter = -3 ∧
    -(stringWidth demoFont7 [32] / 2) -
        ((AlignCenter : ℤ) : ℚ) * (stringWidth demoFont7 [32] / 2) = -7/2 ∧
    ((-3 : ℤ) : ℚ) ≠ -7/2 := by
  refine ⟨?_, ?_, by norm_num⟩
  · with_unfolding_all decide
  · with_unfolding_all decide

/-- C3 amended: the horizontal offset `MapString` applies to the
anchor's x coordinate is the `int32` truncation (toward zero) of
`-halfWidth - alignment.horizontal * halfWidth`, not that exact value;
the vertices are generated from the anchor shifted by exactly this
truncated offset. -/
theorem claim_C3_amended (font : FontInfo) (str : List ℕ) (pos : Point) (align : Align) :
    MapString font str pos align =
      flattenVerts (mapRunes font str
        ((pos.X + horizontalOffset font str align.H : ℤ) : ℚ)
        ((pos.Y : ℚ) + vOffset font align.V)) ∧
    horizontalOffset font str align.H =
      truncQ (-(stringWidth font str / 2) -
        ((align.H : ℤ) : ℚ) * (stringWidth font str / 2)) :=
  ⟨rfl, rfl⟩

theorem buildGlyphs_chain (glyph : ℕ → Option GlyphData) :
    ∀ (codes : List ℕ) (idx : ℤ) (bytes : List ℕ) (ris : List runeInfo) (fin : ℤ)
      (outBytes : List ℕ),
      buildGlyphs glyph codes idx bytes = some (ris, fin, outBytes) → RowChain idx ris := by
  intro codes
  induction codes with
  | nil =>
      intro idx bytes ris fin outBytes h
      simp only [buildGlyphs, Option.some.injEq, Prod.mk.injEq] at h
      rw [← h.1]
      exact trivial
  | cons c cs ih =>
      intro idx bytes ris fin outBytes h
      simp only [buildGlyphs] at h
      cases hg : glyph c with
      | none => rw [hg] at h; exact Option.noConfusion h
      | some g =>
          rw [hg] at h
          dsimp only at h
          cases hok : (g.okBounds && g.isAlpha) with
          | false => rw [if_neg (by simp [hok])] at h; exact Option.noConfusion h
          | true =>
              rw [if_pos hok] at h
              cases hrec : buildGlyphs glyph cs (idx + (g.dy : ℤ)) (bytes ++ glyphRowBytes g) with
              | none => rw [hrec] at h; exact Option.noConfusion h
              | some res =>
                  obtain ⟨ris', fin', outBytes'⟩ := res
                  rw [hrec] at h
                  dsimp only at h
                  simp only [Option.some.injEq, Prod.mk.injEq] at h
                  obtain ⟨h1, _, _⟩ := h
                  rw [← h1]
                  exact ⟨rfl, ih _ _ _ _ _ hrec⟩

theorem rowChain_first (idx : ℤ) (l : List runeInfo) (h : RowChain idx l) :
    ∀ h0 : 0 < l.length, (l.get ⟨0, h0⟩).row = idx := by
  cases l with
  | nil => intro h0; simp at h0
  | cons r rs => intro h0; exact h.1

theorem rowChain_get (l : List runeInfo) : ∀ (idx : ℤ), RowChain idx l →
    ∀ i (hi : i + 1 < l.length),
      (l.get ⟨i+1, hi⟩).row =
        (l.get ⟨i, Nat.lt_of_succ_lt hi⟩).row + (l.get ⟨i, Nat.lt_of_succ_lt hi⟩).height := by
  induction l with
  | nil => intro idx h i hi; simp at hi
  | cons r rs ih =>
      intro idx h i hi
      cases i with
      | zero =>
          have hrs : 0 < rs.length := by
            have := hi
            simp at this
            omega
          have hfirst := rowChain_first (idx + r.height) rs h.2 hrs
          have hr : r.row = idx := h.1
          show (rs.get ⟨0, hrs⟩).row = r.row + r.height
          rw [hfirst, hr]
      | succ j =>
          have hj : j + 1 < rs.length := by
            have := hi
            simp at this
            omega
          exact ih (idx + r.height) h.2 j hj

theorem buildAtlas_inv (env : FontEnv) (info : FontInfo) (h : buildAtlas env = some info) :
    ∃ rm fin bytes glyphA,
      buildGlyphs env.glyph supportedCodes 0 [] = some (rm, fin, bytes) ∧
      env.glyph 65 = some glyphA ∧
      info.runeMap = rm ∧
      info.texture.width = (glyphA.stride : ℤ) ∧
      info.texture.height = ((bytes.length / glyphA.stride : ℕ) : ℤ) := by
  unfold buildAtlas at h
  cases hfb : env.fileBytes with
  | none => rw [hfb] at h; exact Option.noConfusion h
  | some fb =>
      rw [hfb] at h
      dsimp only at h
      cases htt : env.ttfParseOK with
      | false => rw [if_neg (by simp [htt])] at h; exact Option.noConfusion h
      | true =>
          rw [if_pos htt] at h
          cases hsf : env.sfntParseOK with
          | false => rw [if_neg (by simp [hsf])] at h; exact Option.noConfusion h
          | true =>
              rw [if_pos hsf] at h
              cases hbg : buildGlyphs env.glyph supportedCodes 0 [] with
              | none => rw [hbg] at h; exact Option.noConfusion h
              | some res =>
                  obtain ⟨rm, fin, bytes⟩ := res
                  rw [hbg] at h
                  dsimp only at h
                  cases hga : env.glyph 65 with
                  | none => rw [hga] at h; exact Option.noConfusion h
                  | some glyphA =>
                      rw [hga] at h
                      dsimp only [NewTexture, SetParameter] at h
                      cases hnf : env.newFaceOK with
                      | false => rw [if_neg (by simp [hnf])] at h; exact Option.noConfusion h
                      | true =>
                          rw [if_pos hnf] at h
                          have hinfo := (Option.some.inj h).symm
                          refine ⟨rm, fin, bytes, glyphA, rfl, rfl, ?_, ?_, ?_⟩ <;>
                            rw [hinfo]

/-- C1: in every atlas successfully built, the glyph records in
supported-range order have contiguous rows: the first record's `row` is
0 and each next record's `row` is the previous record's `row` plus its
`height` — no gaps and no overlap. -/
theorem claim_C1_row_contiguity (env : FontEnv) (info : FontInfo)
    (h : buildAtlas env = some info) :
    (∀ h0 : 0 < info.runeMap.length, (info.runeMap.get ⟨0, h0⟩).row = 0) ∧
    (∀ i (hi : i + 1 < info.runeMap.length),
      (info.runeMap.get ⟨i + 1, hi⟩).row =
        (info.runeMap.get ⟨i, Nat.lt_of_succ_lt hi⟩).row +
          (info.runeMap.get ⟨i, Nat.lt_of_succ_lt hi⟩).height) := by
  obtain ⟨rm, fin, bytes, glyphA, hbg, _, hrm, _, _⟩ := buildAtlas_inv env info h
  have hchain := buildGlyphs_chain env.glyph supportedCodes 0 [] rm fin bytes hbg
  rw [← hrm] at hchain
  exact ⟨rowChain_first 0 info.runeMap hchain, rowChain_get info.runeMap 0 hchain⟩

/-- C1 witness: the claim instantiated at a concrete successful build. -/
theorem claim_C1_witness :
    ∃ info, buildAtlas demoEnv = some info ∧
      ((∀ h0 : 0 < info.runeMap.length, (info.runeMap.get ⟨0, h0⟩).row = 0) ∧
       (∀ i (hi : i + 1 < info.runeMap.length),
         (info.runeMap.get ⟨i + 1, hi⟩).row =
           (info.runeMap.get ⟨i, Nat.lt_of_succ_lt hi⟩).row +
             (info.runeMap.get ⟨i, Nat.lt_of_succ_lt hi⟩).height)) :=
  ⟨_, rfl, claim_C1_row_contiguity demoEnv _ rfl⟩

theorem buildGlyphs_idx (glyph : ℕ → Option GlyphData) :
    ∀ (codes : List ℕ) (idx : ℤ) (bytes : List ℕ) (ris : List runeInfo) (fin : ℤ)
      (outBytes : List ℕ),
      buildGlyphs glyph codes idx bytes = some (ris, fin, outBytes) →
      ris.length = codes.length ∧
      ∀ i (hi : i < ris.length), ∃ g,
        glyph (codes.getD i 0) = some g ∧
        ris.get ⟨i, hi⟩ = mkRuneInfo (ris.get ⟨i, hi⟩).row g := by
  intro codes
  induction codes with
  | nil =>
      intro idx bytes ris fin outBytes h
      simp only [buildGlyphs, Option.some.injEq, Prod.mk.injEq] at h
      obtain ⟨h1, _, _⟩ := h
      constructor
      · rw [← h1]
        rfl
      · intro i hi
        rw [← h1] at hi
        simp at hi
  | cons c cs ih =>
      intro idx bytes ris fin outBytes h
      simp only [buildGlyphs] at h
      cases hg : glyph c with
      | none => rw [hg] at h; exact Option.noConfusion h
      | some g =>
          rw [hg] at h
          dsimp only at h
          cases hok : (g.okBounds && g.isAlpha) with
          | false => rw [if_neg (by simp [hok])] at h; exact Option.noConfusion h
          | true =>
              rw [if_pos hok] at h
              cases hrec : buildGlyphs glyph cs (idx + (g.dy : ℤ)) (bytes ++ glyphRowBytes g) with
              | none => rw [hrec] at h; exact Option.noConfusion h
              | some res =>
                  obtain ⟨ris', fin', outBytes'⟩ := res
                  rw [hrec] at h
                  dsimp only at h
                  simp only [Option.some.injEq, Prod.mk.injEq] at h
                  obtain ⟨h1, _, _⟩ := h
                  obtain ⟨ihlen, ihidx⟩ := ih _ _ _ _ _ hrec
                  rw [← h1]
                  constructor
                  · simp [ihlen]
                  · intro i hi
                    cases i with
                    | zero => exact ⟨g, hg, rfl⟩
                    | succ j =>
                        have hj : j < ris'.length := by
                          simp at hi
                          omega
                        obtain ⟨g2, hg2, hr2⟩ := ihidx j hj
                        exact ⟨g2, hg2, hr2⟩

/-- C4 counterexample: build over a rasterizer whose precise bounding
boxes have left edge 80/64 = 1.25. The stored `bearingX` is 2 (the
ceiling), while rounding 1.25 to the nearest integer half-away-from-zero
gives 1, so the claimed equality fails for every glyph of this atlas. -/
theorem claim_C4_counterexample :
    ∃ info, buildAtlas cex4Env = some info ∧
      (info.runeMap.getD 0 runeInfo0).bearingX = 2 ∧
      roundAway ((80 : ℚ) / 64) = 1 ∧
      (info.runeMap.getD 0 runeInfo0).bearingX ≠ ((roundAway ((80 : ℚ) / 64) : ℤ) : ℚ) := by
  refine ⟨_, rfl, ?_, ?_, ?_⟩
  · with_unfolding_all decide
  · with_unfolding_all decide
  · with_unfolding_all decide

/-- C4 amended: the atlas has one record per supported code, and the
record at index `i` — the record of character code `32 + i` — stores as
`bearingX` the ceiling of that character's precise bounding box's left
edge (the code's subsequent `math.Round` acts on an already-integral
value and is the identity), and as `advance` — as claimed — that
character's fixed-point advance converted to float and rounded to the
nearest integer half-away-from-zero. -/
theorem claim_C4_amended (env : FontEnv) (info : FontInfo)
    (h : buildAtlas env = some info) :
    info.runeMap.length = supportedCodes.length ∧
    ∀ i (hi : i < info.runeMap.length), ∃ g,
      env.glyph (minASCII + i) = some g ∧
      (info.runeMap.get ⟨i, hi⟩).bearingX = ((fixedCeil g.accMinX : ℤ) : ℚ) ∧
      fixedCeil g.accMinX = ⌈(g.accMinX : ℚ) / 64⌉ ∧
      (info.runeMap.get ⟨i, hi⟩).advance = ((roundAway ((g.advance : ℚ) / 64) : ℤ) : ℚ) := by
  obtain ⟨rm, fin, bytes, glyphA, hbg, _, hrm, _, _⟩ := buildAtlas_inv env info h
  subst hrm
  obtain ⟨hlen, hidx⟩ := buildGlyphs_idx env.glyph supportedCodes 0 [] _ fin bytes hbg
  have hcode : ∀ i, i < 95 → supportedCodes.getD i 0 = minASCII + i := by decide
  have h95 : supportedCodes.length = 95 := by decide
  refine ⟨hlen, ?_⟩
  intro i hi
  have hi95 : i < 95 := by omega
  obtain ⟨g, hg, hr⟩ := hidx i hi
  rw [hcode i hi95] at hg
  refine ⟨g, hg, ?_, fixedCeil_eq g.accMinX, ?_⟩
  · rw [hr]
    show ((roundAway ((fixedCeil g.accMinX : ℤ) : ℚ) : ℤ) : ℚ) = _
    rw [roundAway_intCast]
  · rw [hr]
    show ((roundAway (int26_6ToFloat32 g.advance) : ℤ) : ℚ) = _
    rw [int26_6ToFloat32_eq]

/-- C4 witness: the amended claim instantiated at a concrete build. -/
theorem claim_C4_witness :
    ∃ info, buildAtlas demoEnv = some info ∧
      (info.runeMap.length = supportedCodes.length ∧
       ∀ i (hi : i < info.runeMap.length), ∃ g,
         demoEnv.glyph (minASCII + i) = some g ∧
         (info.runeMap.get ⟨i, hi⟩).bearingX = ((fixedCeil g.accMinX : ℤ) : ℚ) ∧
         fixedCeil g.accMinX = ⌈(g.accMinX : ℚ) / 64⌉ ∧
         (info.runeMap.get ⟨i, hi⟩).advance = ((roundAway ((g.advance : ℚ) / 64) : ℤ) : ℚ)) :=
  ⟨_, rfl, claim_C4_amended demoEnv _ rfl⟩

theorem glyphRowBytes_length (g : GlyphData) :
    (glyphRowBytes g).length = g.dy * g.stride := by
  unfold glyphRowBytes
  generalize g.dy = n
  induction n with
  | zero => simp
  | succ n ih =>
      rw [List.range_succ, List.flatMap_append, List.length_append, ih]
      simp [Nat.succ_mul]

theorem buildGlyphs_totals (glyph : ℕ → Option GlyphData) (s : ℕ)
    (hs : ∀ c g, glyph c = some g → g.stride = s) :
    ∀ (codes : List ℕ) (idx : ℤ) (bytes : List ℕ) (ris : List runeInfo) (fin : ℤ)
      (outBytes : List ℕ),
      buildGlyphs glyph codes idx bytes = some (ris, fin, outBytes) →
      ∃ T : ℕ, fin = idx + (T : ℤ) ∧ outBytes.length = bytes.length + s * T ∧
        (ris.map (fun r => r.height)).sum = (T : ℤ) := by
  intro codes
  induction codes with
  | nil =>
      intro idx bytes ris fin outBytes h
      simp only [buildGlyphs, Option.some.injEq, Prod.mk.injEq] at h
      obtain ⟨h1, h2, h3⟩ := h
      exact ⟨0, by omega, by rw [← h3]; omega, by rw [← h1]; simp⟩
  | cons c cs ih =>
      intro idx bytes ris fin outBytes h
      simp only [buildGlyphs] at h
      cases hg : glyph c with
      | none => rw [hg] at h; exact Option.noConfusion h
      | some g =>
          rw [hg] at h
          dsimp only at h
          cases hok : (g.okBounds && g.isAlpha) with
          | false => rw [if_neg (by simp [hok])] at h; exact Option.noConfusion h
          | true =>
              rw [if_pos hok] at h
              cases hrec : buildGlyphs glyph cs (idx + (g.dy : ℤ)) (bytes ++ glyphRowBytes g) with
              | none => rw [hrec] at h; exact Option.noConfusion h
              | some res =>
                  obtain ⟨ris', fin', outBytes'⟩ := res
                  rw [hrec] at h
                  dsimp only at h
                  simp only [Option.some.injEq, Prod.mk.injEq] at h
                  obtain ⟨h1, h2, h3⟩ := h
                  obtain ⟨T, hT1, hT2, hT3⟩ := ih _ _ _ _ _ hrec
                  refine ⟨g.dy + T, ?_, ?_, ?_⟩
                  · rw [← h2, hT1]; push_cast; ring
                  · rw [← h3, hT2]
                    rw [List.length_append, glyphRowBytes_length, hs c g hg]
                    ring
                  · rw [← h1]
                    simp only [List.map_cons, List.sum_cons, hT3]
                    show (g.dy : ℤ) + (T : ℤ) = ((g.dy + T : ℕ) : ℤ)
                    push_cast
                    ring

/-- C8: after a successful build over a rasterizer whose bitmap masks
all share byte stride `s > 0`, the atlas texture's width is `s` and its
height is the final running row count — the total number of bitmap rows
appended across all glyphs, i.e. the sum of the stored `height`s. -/
theorem claim_C8_texture_dims (env : FontEnv) (info : FontInfo) (s : ℕ)
    (h : buildAtlas env = some info)
    (hs : ∀ c g, env.glyph c = some g → g.stride = s) (hpos : 0 < s) :
    info.texture.width = (s : ℤ) ∧
    (∀ rm fin bytes, buildGlyphs env.glyph supportedCodes 0 [] = some (rm, fin, bytes) →
      info.texture.height = fin) ∧
    info.texture.height = (info.runeMap.map (fun r => r.height)).sum := by
  obtain ⟨rm, fin, bytes, glyphA, hbg, hga, hrm, hw, hh⟩ := buildAtlas_inv env info h
  obtain ⟨T, hT1, hlen, hsum⟩ :=
    buildGlyphs_totals env.glyph s hs supportedCodes 0 [] rm fin bytes hbg
  have hheight : info.texture.height = (T : ℤ) := by
    rw [hh, hs 65 glyphA hga]
    simp only [List.length_nil, Nat.zero_add] at hlen
    rw [hlen, Nat.mul_div_cancel_left T hpos]
  refine ⟨by rw [hw, hs 65 glyphA hga], ?_, ?_⟩
  · intro rm2 fin2 bytes2 hbg2
    rw [hbg] at hbg2
    have h2 := Option.some.inj hbg2
    have hfin2 : fin = fin2 := congrArg (fun p => p.2.1) h2
    rw [hheight, ← hfin2, hT1]
    omega
  · rw [hheight, hrm]
    exact hsum.symm

/-- C8 witness: the claim instantiated at a concrete build with uniform
stride 1. -/
theorem claim_C8_witness :
    ∃ info, buildAtlas demoEnv = some info ∧
      info.texture.width = ((1 : ℕ) : ℤ) ∧
      (∀ rm fin bytes, buildGlyphs demoEnv.glyph supportedCodes 0 [] = some (rm, fin, bytes) →
        info.texture.height = fin) ∧
      info.texture.height = (info.runeMap.map (fun r => r.height)).sum :=
  ⟨_, rfl, claim_C8_texture_dims demoEnv _ 1 rfl
    (fun c g hg => by
      have h2 : some demoGlyph = some g := hg
      cases Option.some.inj h2
      rfl)
    (by decide)⟩

/-- C5: after a first successful `LoadFontTexture` call for a key, a
second call with the same key returns the very same `FontInfo` (hence
identical glyph metrics and texture dimensions), leaves the cache
unchanged, and performs zero build work: it is a pure cache hit. -/
theorem claim_C5_cache_idempotent (env : fontKey → FontEnv)
    (fontMap : fontKey → Option FontInfo) (fontName : String) (fontSize : ℤ)
    (info : FontInfo) (cache1 : fontKey → Option FontInfo) (n1 : ℕ)
    (h : LoadFontTexture env fontMap fontName fontSize = (some info, cache1, n1)) :
    LoadFontTexture env cache1 fontName fontSize = (some info, cache1, 0) := by
  simp only [LoadFontTexture] at h ⊢
  cases hk : fontMap { fontName := fontName, fontSize := fontSize } with
  | some v =>
      rw [hk] at h
      dsimp only at h
      simp only [Prod.mk.injEq, Option.some.injEq] at h
      obtain ⟨h1, h2, _⟩ := h
      rw [← h2, hk]
      dsimp only
      rw [h1]
  | none =>
      rw [hk] at h
      dsimp only at h
      cases hb : buildAtlas (env { fontName := fontName, fontSize := fontSize }) with
      | none =>
          rw [hb] at h
          simp only [Prod.mk.injEq] at h
          exact Option.noConfusion h.1
      | some b =>
          rw [hb] at h
          dsimp only at h
          simp only [Prod.mk.injEq, Option.some.injEq] at h
          obtain ⟨h1, h2, _⟩ := h
          have hhit : cache1 { fontName := fontName, fontSize := fontSize } = some info := by
            rw [← h2]
            dsimp only
            rw [if_pos rfl, h1]
          rw [hhit]

/-- C6: whenever `LoadFontTexture` fails for a key, the cache is left
pointwise unchanged, and in particular it holds no entry for that key —
no partial atlas is ever stored on any error path. -/
theorem claim_C6_error_cache_unchanged (env : fontKey → FontEnv)
    (fontMap : fontKey → Option FontInfo) (fontName : String) (fontSize : ℤ)
    (cache1 : fontKey → Option FontInfo) (n1 : ℕ)
    (h : LoadFontTexture env fontMap fontName fontSize = (none, cache1, n1)) :
    (∀ k, cache1 k = fontMap k) ∧
    cache1 { fontName := fontName, fontSize := fontSize } = none := by
  simp only [LoadFontTexture] at h
  cases hk : fontMap { fontName := fontName, fontSize := fontSize } with
  | some v =>
      rw [hk] at h
      dsimp only at h
      simp only [Prod.mk.injEq] at h
      exact Option.noConfusion h.1
  | none =>
      rw [hk] at h
      dsimp only at h
      cases hb : buildAtlas (env { fontName := fontName, fontSize := fontSize }) with
      | none =>
          rw [hb] at h
          simp only [Prod.mk.injEq] at h
          obtain ⟨_, h2, _⟩ := h
          rw [← h2]
          exact ⟨fun k => rfl, hk⟩
      | some b =>
          rw [hb] at h
          dsimp only at h
          simp only [Prod.mk.injEq] at h
          exact Option.noConfusion h.1

/-- C5 witness: a successful first call followed by a pure cache hit. -/
theorem claim_C5_witness :
    ∃ info cache1 n1,
      LoadFontTexture (fun _ => demoEnv) emptyFontMap "demo" 12 = (some info, cache1, n1) ∧
      LoadFontTexture (fun _ => demoEnv) cache1 "demo" 12 = (some info, cache1, 0) :=
  ⟨_, _, _, rfl,
    claim_C5_cache_idempotent (fun _ => demoEnv) emptyFontMap "demo" 12 _ _ _ rfl⟩

/-- C6 witness: a missing-glyph build failure leaves the cache empty. -/
theorem claim_C6_witness :
    ∃ cache1 n1,
      LoadFontTexture (fun _ => badEnv) emptyFontMap "demo" 12 = (none, cache1, n1) ∧
      (∀ k, cache1 k = emptyFontMap k) ∧
      cache1 { fontName := "demo", fontSize := 12 } = none :=
  ⟨_, _, rfl,
    claim_C6_error_cache_unchanged (fun _ => badEnv) emptyFontMap "demo" 12 _ _ rfl⟩

theorem getLastD_mem {α : Type} (l : List α) (hne : l ≠ []) (d : α) :
    l.getLastD d ∈ l := by
  induction l generalizing d with
  | nil => exact absurd rfl hne
  | cons a l ih =>
      cases hl : l with
      | nil => simp
      | cons b l2 =>
          rw [List.getLastD_cons]
          rw [hl] at ih
          exact List.mem_cons_of_mem a (ih (by simp) a)

theorem getLastD_indep {α : Type} (l : List α) (hne : l ≠ []) (d e : α) :
    l.getLastD d = l.getLastD e := by
  cases l with
  | nil => exact absurd rfl hne
  | cons a l => rw [List.getLastD_cons, List.getLastD_cons]

theorem glyphVerts_x (info : runeInfo) (ox oy : ℚ) :
    ∀ v ∈ glyphVerts info ox oy,
      v.x = ox + info.bearingX ∨ v.x = ox + info.bearingX + (info.width : ℚ) := by
  intro v hv
  simp only [glyphVerts, List.mem_cons, List.not_mem_nil, or_false] at hv
  rcases hv with h | h | h | h | h | h <;> rw [h] <;> simp

theorem advSum_nonneg (font : FontInfo) (str : List ℕ)
    (hg : ∀ c ∈ str, 0 ≤ (runeAt font c).advance) :
    0 ≤ (str.map (fun c => (runeAt font c).advance)).sum := by
  apply List.sum_nonneg
  intro x hx
  obtain ⟨c, hc, rfl⟩ := List.mem_map.mp hx
  exact hg c hc

theorem mapRunes_x_bounds (font : FontInfo) :
    ∀ (str : List ℕ) (ox oy : ℚ),
      (∀ c ∈ str, (runeAt font c).bearingX = 0 ∧
        0 ≤ ((runeAt font c).width : ℚ) ∧
        ((runeAt font c).width : ℚ) ≤ (runeAt font c).advance) →
      ∀ v ∈ mapRunes font str ox oy,
        ox ≤ v.x ∧ v.x ≤ ox + (str.map (fun c => (runeAt font c).advance)).sum := by
  intro str
  induction str with
  | nil => intro ox oy hg v hv; simp [mapRunes] at hv
  | cons c cs ih =>
      intro ox oy hg v hv
      have hc := hg c (List.mem_cons_self c cs)
      have hadv : 0 ≤ (runeAt font c).advance := le_trans hc.2.1 hc.2.2
      have hScs : 0 ≤ (cs.map (fun c => (runeAt font c).advance)).sum :=
        advSum_nonneg font cs (fun c2 hc2 =>
          le_trans (hg c2 (List.mem_cons_of_mem c hc2)).2.1
            (hg c2 (List.mem_cons_of_mem c hc2)).2.2)
      rw [show mapRunes font (c :: cs) ox oy =
        glyphVerts (runeAt font c) ox oy ++
          mapRunes font cs (ox + (runeAt font c).advance) oy from rfl] at hv
      rw [List.mem_append] at hv
      rw [List.map_cons, List.sum_cons]
      cases hv with
      | inl hq =>
          rcases glyphVerts_x (runeAt font c) ox oy v hq with hx | hx <;> rw [hx, hc.1]
          · constructor
            · simp
            · have := hc.2.2
              linarith
          · constructor
            · have := hc.2.1
              linarith
            · have := hc.2.2
              linarith
      | inr hrest =>
          have := ih (ox + (runeAt font c).advance) oy
            (fun c2 hc2 => hg c2 (List.mem_cons_of_mem c hc2)) v hrest
          constructor
          · linarith [this.1]
          · have h2 := this.2
            linarith

theorem mapRunes_exists_left (font : FontInfo) (str : List ℕ) (ox oy : ℚ)
    (hne : str ≠ []) (hb : ∀ c ∈ str, (runeAt font c).bearingX = 0) :
    ∃ v, v ∈ mapRunes font str ox oy ∧ v.x = ox := by
  cases str with
  | nil => exact absurd rfl hne
  | cons c cs =>
      refine ⟨{ x := ox + (runeAt font c).bearingX,
                y := oy - (runeAt font c).bearingY,
                s := 0,
                t := ((runeAt font c).row : ℚ) + ((runeAt font c).height : ℚ) }, ?_, ?_⟩
      · rw [show mapRunes font (c :: cs) ox oy =
          glyphVerts (runeAt font c) ox oy ++
            mapRunes font cs (ox + (runeAt font c).advance) oy from rfl]
        apply List.mem_append_left
        simp [glyphVerts]
      · rw [hb c (List.mem_cons_self c cs)]
        simp

theorem mapRunes_exists_right (font : FontInfo) :
    ∀ (str : List ℕ) (ox oy : ℚ), str ≠ [] →
      (∀ c ∈ str, (runeAt font c).bearingX = 0) →
      ((runeAt font (str.getLastD 0)).width : ℚ) = (runeAt font (str.getLastD 0)).advance →
      ∃ v, v ∈ mapRunes font str ox oy ∧
        v.x = ox + (str.map (fun c => (runeAt font c).advance)).sum := by
  intro str
  induction str with
  | nil => intro ox oy hne; exact absurd rfl hne
  | cons c cs ih =>
      intro ox oy _ hb hlast
      cases cs with
      | nil =>
          have hlast2 : ((runeAt font c).width : ℚ) = (runeAt font c).advance := hlast
          refine ⟨{ x := ox + (runeAt font c).bearingX + ((runeAt font c).width : ℚ),
                    y := oy - (runeAt font c).bearingY,
                    s := ((runeAt font c).width : ℚ),
                    t := ((runeAt font c).row : ℚ) + ((runeAt font c).height : ℚ) }, ?_, ?_⟩
          · rw [show mapRunes font [c] ox oy =
              glyphVerts (runeAt font c) ox oy ++
                mapRunes font [] (ox + (runeAt font c).advance) oy from rfl]
            apply List.mem_append_left
            simp [glyphVerts, add_assoc]
          · rw [hb c (List.mem_cons_self c []), hlast2]
            simp
      | cons c2 cs2 =>
          have hcsne : (c2 :: cs2) ≠ [] := by simp
          have hlc : ((c :: c2 :: cs2).getLastD 0) = (c2 :: cs2).getLastD 0 := by
            rw [List.getLastD_cons]
            exact getLastD_indep (c2 :: cs2) hcsne c 0
          rw [hlc] at hlast
          obtain ⟨v, hvmem, hvx⟩ := ih (ox + (runeAt font c).advance) oy hcsne
            (fun c3 hc3 => hb c3 (List.mem_cons_of_mem c hc3)) hlast
          refine ⟨v, ?_, ?_⟩
          · rw [show mapRunes font (c :: c2 :: cs2) ox oy =
              glyphVerts (runeAt font c) ox oy ++
                mapRunes font (c2 :: cs2) (ox + (runeAt font c).advance) oy from rfl]
            exact List.mem_append_right _ hvmem
          · rw [hvx]
            simp only [List.map_cons, List.sum_cons]
            ring

/-- C7 counterexample: for a centered one-character string whose glyph
has `bearingX = 5`, `width = 2`, `advance = 10`, anchored at x = 0, the
vertex x coordinates range over [0, 2]: min + max = 2, not 2·anchor.x = 0
(a gap of 2 pixels, far beyond floating-point tolerance), so the claimed
symmetry fails at this input even though all advances are non-negative. -/
theorem claim_C7_counterexample :
    (xComponents (MapString demoFontInk [32] { X := 0, Y := 0 }
        { V := AlignMiddle, H := AlignCenter })).minimum = ((0 : ℚ) : WithTop ℚ) ∧
    (xComponents (MapString demoFontInk [32] { X := 0, Y := 0 }
        { V := AlignMiddle, H := AlignCenter })).maximum = ((2 : ℚ) : WithBot ℚ) ∧
    (0 : ℚ) + 2 ≠ 2 * ((({ X := 0, Y := 0 } : Point).X : ℤ) : ℚ) := by
  refine ⟨?_, ?_, by norm_num⟩
  · with_unfolding_all decide
  · with_unfolding_all decide

/-- C7 amended: the center-alignment symmetry `min x + max x = 2·anchor.x`
holds exactly under the hypotheses the counterexample forces: every
glyph of the string has `bearingX = 0` and ink within its advance
(`0 ≤ width ≤ advance`), the last glyph's ink exactly fills its advance
(`width = advance`, so the total width is the advance sum), and the
total width is an even integer `2k` (so the truncation in the centering
offset is exact). -/
theorem claim_C7_amended (font : FontInfo) (str : List ℕ) (pos : Point) (align : Align)
    (hne : str ≠ []) (hH : align.H = AlignCenter)
    (hg : ∀ c ∈ str, (runeAt font c).bearingX = 0 ∧
      0 ≤ ((runeAt font c).width : ℚ) ∧
      ((runeAt font c).width : ℚ) ≤ (runeAt font c).advance)
    (hlast : ((runeAt font (str.getLastD 0)).width : ℚ) =
      (runeAt font (str.getLastD 0)).advance)
    (k : ℤ)
    (hsum : (str.map (fun c => (runeAt font c).advance)).sum = ((2 * k : ℤ) : ℚ)) :
    ∃ mn mx : ℚ,
      (xComponents (MapString font str pos align)).minimum = (mn : WithTop ℚ) ∧
      (xComponents (MapString font str pos align)).maximum = (mx : WithBot ℚ) ∧
      mn + mx = 2 * (pos.X : ℚ) := by
  have hbx0 : (runeAt font (str.getLastD 0)).bearingX = 0 :=
    (hg _ (getLastD_mem str hne 0)).1
  have hS : stringWidth font str = (str.map (fun c => (runeAt font c).advance)).sum := by
    simp only [stringWidth]
    rw [foldl_advance, if_neg]
    · rw [zero_add]
    · rw [hbx0, hlast]
      simp
  have hoff : horizontalOffset font str align.H = -k := by
    rw [horizontalOffset, hS, hsum, hH]
    have heq : -((((2 * k : ℤ) : ℚ)) / 2) -
        (AlignCenter : ℚ) * ((((2 * k : ℤ) : ℚ)) / 2) = ((-k : ℤ) : ℚ) := by
      rw [show ((AlignCenter : ℤ) : ℚ) = 0 from by norm_num [AlignCenter]]
      push_cast
      ring
    rw [heq, truncQ_intCast]
  have hO : ((pos.X + horizontalOffset font str align.H : ℤ) : ℚ) =
      (pos.X : ℚ) - (k : ℚ) := by
    rw [hoff]
    push_cast
    ring
  have hxs : xComponents (MapString font str pos align) =
      (mapRunes font str ((pos.X + horizontalOffset font str align.H : ℤ) : ℚ)
        ((pos.Y : ℚ) + vOffset font align.V)).map (fun v => v.x) := by
    rw [show MapString font str pos align = flattenVerts (mapRunes font str
      ((pos.X + horizontalOffset font str align.H : ℤ) : ℚ)
      ((pos.Y : ℚ) + vOffset font align.V)) from rfl]
    exact xComponents_flattenVerts _
  obtain ⟨vL, hvLmem, hvLx⟩ := mapRunes_exists_left font str
    ((pos.X + horizontalOffset font str align.H : ℤ) : ℚ)
    ((pos.Y : ℚ) + vOffset font align.V) hne (fun c hc => (hg c hc).1)
  obtain ⟨vR, hvRmem, hvRx⟩ := mapRunes_exists_right font str
    ((pos.X + horizontalOffset font str align.H : ℤ) : ℚ)
    ((pos.Y : ℚ) + vOffset font align.V) hne (fun c hc => (hg c hc).1) hlast
  have hbounds := mapRunes_x_bounds font str
    ((pos.X + horizontalOffset font str align.H : ℤ) : ℚ)
    ((pos.Y : ℚ) + vOffset font align.V) hg
  refine ⟨(pos.X : ℚ) - (k : ℚ), (pos.X : ℚ) + (k : ℚ), ?_, ?_, by ring⟩
  · rw [hxs, List.minimum_eq_coe_iff]
    constructor
    · rw [List.mem_map]
      exact ⟨vL, hvLmem, by rw [hvLx, hO]⟩
    · intro a ha
      obtain ⟨v, hv, rfl⟩ := List.mem_map.mp ha
      have hlow := (hbounds v hv).1
      rw [hO] at hlow
      exact hlow
  · rw [hxs, List.maximum_eq_coe_iff]
    constructor
    · rw [List.mem_map]
      refine ⟨vR, hvRmem, ?_⟩
      rw [hvRx, hsum, hO]
      push_cast
      ring
    · intro a ha
      obtain ⟨v, hv, rfl⟩ := List.mem_map.mp ha
      have hup := (hbounds v hv).2
      rw [hsum, hO] at hup
      push_cast at hup
      linarith

/-- C7 witness: the amended claim instantiated at a one-character string
of a zero-bearing glyph whose width equals its advance 2 (total width
2·1). -/
theorem claim_C7_witness :
    ∃ mn mx : ℚ,
      (xComponents (MapString demoFontSquare [32] { X := 0, Y := 0 }
          { V := AlignMiddle, H := AlignCenter })).minimum = (mn : WithTop ℚ) ∧
      (xComponents (MapString demoFontSquare [32] { X := 0, Y := 0 }
          { V := AlignMiddle, H := AlignCenter })).maximum = (mx : WithBot ℚ) ∧
      mn + mx = 2 * ((({ X := 0, Y := 0 } : Point).X : ℤ) : ℚ) :=
  claim_C7_amended demoFontSquare [32] { X := 0, Y := 0 } { V := AlignMiddle, H := AlignCenter }
    (by decide) rfl
    (by intro c hc; simp at hc; rw [hc]; refine ⟨?_, ?_, ?_⟩ <;> with_unfolding_all decide)
    (by with_unfolding_all decide) 1 (by with_unfolding_all decide)
